import Mathlib

/-!
Verification of the DNAmespace GenBank parser (`parsegb.py`).

The development shallowly embeds the parser's data model and operations over
`List Char` (Python strings).  Python-specific behaviours are reproduced
explicitly: `str.strip` trims characters from both ends only, `str.split`
keeps empty segments, `str.replace` rewrites every non-overlapping occurrence
left to right, slices clamp silently, and single-index access raises
`IndexError` when out of range.  Fallible operations return `Except GBErr`.

The helper module `nucutils` is imported by `parsegb.py` but is not part of
the repository snapshot; its three members (`get_complement`,
`deduce_alphabet`, `iupac_characters`) are modelled from the specification's
Alphabet/Complement utility section and are marked as such below.
-/

namespace Parsegb

/-- The characters Python's default `str.strip()` removes. -/
def isPyWs (c : Char) : Bool :=
  c = ' ' || c = '\t' || c = '\n' || c = '\r' || c = '\x0b' || c = '\x0c'

/-- Abbreviation turning a string literal into the character-list model. -/
def cs (s : String) : List Char := s.toList

/-- Python `s.strip(cut)`: drop characters of `cut` from both ends. -/
def pyStripChars (s : List Char) (cut : List Char) : List Char :=
  ((s.dropWhile (fun c => c ∈ cut)).reverse.dropWhile (fun c => c ∈ cut)).reverse

/-- Python `s.strip()` (default whitespace). -/
def pyStripWs (s : List Char) : List Char :=
  ((s.dropWhile isPyWs).reverse.dropWhile isPyWs).reverse

/-- Worker for Python `str.split(sep)` with non-empty separator `c0 :: crest`.
The fuel argument is initialised with the length of the string, which each
step decreases by at least one, so it never runs out on the initial call. -/
def splitGo (c0 : Char) (crest : List Char) : Nat → List Char → List (List Char)
  | 0, s => [s]
  | fuel + 1, s =>
    match s with
    | [] => [[]]
    | a :: t =>
      if (c0 :: crest).isPrefixOf (a :: t) then
        [] :: splitGo c0 crest fuel (t.drop crest.length)
      else
        match splitGo c0 crest fuel t with
        | [] => [[a]]
        | u :: us => (a :: u) :: us

/-- Python `s.split(sep)` for a non-empty separator (empty separators raise
in Python and never occur in the parser). -/
def pySplit (sep : List Char) (s : List Char) : List (List Char) :=
  match sep with
  | [] => [s]
  | c0 :: crest => splitGo c0 crest s.length s

/-- Worker for Python `str.replace(old, new)` with non-empty `old`.  Fuel is
initialised with the string length, which bounds the number of steps. -/
def replGo (o0 : Char) (orest : List Char) (new : List Char) :
    Nat → List Char → List Char
  | 0, s => s
  | fuel + 1, s =>
    match s with
    | [] => []
    | a :: t =>
      if (o0 :: orest).isPrefixOf (a :: t) then
        new ++ replGo o0 orest new fuel (t.drop orest.length)
      else
        a :: replGo o0 orest new fuel t

/-- Python `s.replace(old, new)`: rewrite every non-overlapping occurrence,
left to right.  (For empty `old` Python interleaves `new` everywhere; the
parser never calls it that way and we return `s` unchanged.) -/
def pyReplace (s old new : List Char) : List Char :=
  match old with
  | [] => s
  | o0 :: orest => replGo o0 orest new s.length s

/-- Python `s.split()` (split on whitespace runs, dropping empty pieces). -/
def pySplitWsGo : List Char → List Char → List (List Char)
  | [], acc => if acc.isEmpty then [] else [acc]
  | c :: t, acc =>
    if isPyWs c then
      if acc.isEmpty then pySplitWsGo t [] else acc :: pySplitWsGo t []
    else pySplitWsGo t (acc ++ [c])

def pySplitWs (s : List Char) : List (List Char) := pySplitWsGo s []

/-- Python `int(s)` restricted to the optional-sign digit strings the parser
can produce (GenBank coordinates); other inputs raise `ValueError`, which is
modelled as `none`. -/
def parseNatDigits (l : List Char) : Option Nat :=
  if l.isEmpty then none
  else if l.all Char.isDigit then
    some (l.foldl (fun a c => a * 10 + (c.toNat - 48)) 0)
  else none

def parseInt (l : List Char) : Option Int :=
  match l with
  | '-' :: t => (parseNatDigits t).map (fun n => -(n : Int))
  | _ => (parseNatDigits l).map (fun n => (n : Int))

/-- Python slice `s[a:b]` with possibly negative bounds: negative indices are
offset from the end and everything clamps silently. -/
def pySlice (s : List Char) (a b : Int) : List Char :=
  let n : Int := s.length
  let a2 : Int := if a < 0 then max (n + a) 0 else a
  let b2 : Int := if b < 0 then max (n + b) 0 else b
  (s.take b2.toNat).drop a2.toNat

/-- Errors the embedded code can raise.  They correspond to the Python
exceptions escaping the parser: `NotImplementedError`, `ValueError`,
`IndexError`, `KeyError`, and the two failures of the (spec-modelled)
complement utility. -/
inductive GBErr where
  | notImplemented
  | valueError
  | indexError
  | keyError
  | invalidNucleotide
  | mixedAlphabet
  deriving DecidableEq

/-- Python single-index access `s[i]` (a 1-character string on success,
`IndexError` out of range). -/
def pyIndex (s : List Char) (i : Int) : Except GBErr (List Char) :=
  let n : Int := s.length
  let j : Int := if i < 0 then i + n else i
  if 0 ≤ j ∧ j < n then .ok [s.getD j.toNat 'A'] else .error .indexError

/-- Python dict assignment `d[k] = v`: replaces the value in place when the
key exists (keeping insertion order), otherwise appends the new pair. -/
def dictInsert (m : List (List Char × List Char)) (k v : List Char) :
    List (List Char × List Char) :=
  match m with
  | [] => [(k, v)]
  | (k2, v2) :: t => if k2 = k then (k, v) :: t else (k2, v2) :: dictInsert t k v

/-- Association lookup, i.e. Python `d.get(k)`. -/
def dictLookup (k : List Char) : List (List Char × List Char) → Option (List Char)
  | [] => none
  | (k2, v2) :: t => if k2 = k then some v2 else dictLookup k t

/-- The character set `/\"()` stripped around qualifier names and values in
`GBFeature.store_meta` (both strip calls use the same five characters). -/
def metaStripSet : List Char := ['/', '\\', '\"', '(', ')']

/-- The qualifier name extracted by `GBFeature.store_meta`: first `=`-segment,
whitespace-stripped, then stripped of the `/\"()` characters. -/
def metaName (meta_block : List Char) : List Char :=
  pyStripChars (pyStripWs (pySplit ['='] meta_block).headI) metaStripSet

/-- The qualifier value stored by `GBFeature.store_meta`: the remaining
`=`-segments, each stripped, re-joined with `=`; `translation` values
additionally lose all internal whitespace. -/
def metaContent (meta_block : List Char) : List Char :=
  let bits := (pySplit ['='] meta_block).map
    (fun x => pyStripChars (pyStripWs x) metaStripSet)
  let content := List.intercalate ['='] bits.tail
  if metaName meta_block = cs "translation" then
    content.filter (fun c => !(isPyWs c))
  else content

/-- `GBFeature.store_meta`: parse one `name=value` block and assign it into
the `meta` dictionary.  The Python body cannot raise (`str.split` and the
strips are total), so the surrounding `try/except` skip-and-warn path is
unreachable and every block — including ones without `=` — stores an entry. -/
def store_meta (meta : List (List Char × List Char)) (meta_block : List Char) :
    List (List Char × List Char) :=
  dictInsert meta (metaName meta_block) (metaContent meta_block)

/-- The qualifier loop of `GBFeature.__init__`: each metadata block of the
feature is fed to `store_meta` in file order. -/
def process_meta (meta : List (List Char × List Char))
    (blocks : List (List Char)) : List (List Char × List Char) :=
  blocks.foldl store_meta meta

/-- The span state produced by `GBFeature.set_span`.  `fuzzyboundary = none`
models the Python attribute never being assigned, so that reading it raises
`AttributeError`. -/
structure SpanState where
  spanline : List Char
  fuzzyboundary : Option Bool
  deriving DecidableEq

/-- `GBFeature.set_span`: strip the span line, delete spaces, and — only when
a `<` or `>` fuzziness marker is present — delete the markers and set the
`fuzzyboundary` attribute to `True`. -/
def set_span (spanline : List Char) : SpanState :=
  let s := pyReplace (pyStripWs spanline) [' '] []
  if '<' ∈ s ∨ '>' ∈ s then
    { spanline := pyReplace (pyReplace s ['<'] []) ['>'] []
      fuzzyboundary := some true }
  else
    { spanline := s, fuzzyboundary := none }

/-! ### The nucutils module, modelled from the spec (absent from the snapshot) -/

/-- Modelled from the spec: `nucutils.iupac_characters`, the extended IUPAC
nucleotide alphabet (standard bases, `U`, ambiguity codes, both cases). -/
def iupac_characters : List Char := cs "ACGTURYSWKMBDHVNacgturyswkmbdhvn"

/-- Modelled from the spec: `complement_base`, the case-preserving complement
table over extended IUPAC codes; characters outside the table fail with
`InvalidNucleotide` (modelled as `none`). -/
def complementBase (c : Char) : Option Char :=
  match c with
  | 'A' => some 'T' | 'C' => some 'G' | 'G' => some 'C' | 'T' => some 'A'
  | 'U' => some 'A' | 'R' => some 'Y' | 'Y' => some 'R' | 'S' => some 'S'
  | 'W' => some 'W' | 'K' => some 'M' | 'M' => some 'K' | 'B' => some 'V'
  | 'D' => some 'H' | 'H' => some 'D' | 'V' => some 'B' | 'N' => some 'N'
  | 'a' => some 't' | 'c' => some 'g' | 'g' => some 'c' | 't' => some 'a'
  | 'u' => some 'a' | 'r' => some 'y' | 'y' => some 'r' | 's' => some 's'
  | 'w' => some 'w' | 'k' => some 'm' | 'm' => some 'k' | 'b' => some 'v'
  | 'd' => some 'h' | 'h' => some 'd' | 'v' => some 'b' | 'n' => some 'n'
  | _ => none

/-- Total helper mapping `complementBase` over a string, failing on the first
character outside the IUPAC table. -/
def complementChars : List Char → Option (List Char)
  | [] => some []
  | c :: t =>
    match complementBase c, complementChars t with
    | some d, some r => some (d :: r)
    | _, _ => none

/-- Modelled from the spec: `nucutils.get_complement`, the reverse complement.
Mixing RNA (`U`) and DNA (`T`) bases fails with `MixedAlphabetError`; any
character outside the IUPAC table fails with `InvalidNucleotide`. -/
def get_complement (s : List Char) : Except GBErr (List Char) :=
  if ('U' ∈ s ∨ 'u' ∈ s) ∧ ('T' ∈ s ∨ 't' ∈ s) then .error .mixedAlphabet
  else
    match complementChars s with
    | some r => .ok r.reverse
    | none => .error .invalidNucleotide

/-- Modelled from the spec: `nucutils.deduce_alphabet`, the set of distinct
characters of a sequence (represented as a duplicate-free list). -/
def deduce_alphabet : List Char → List Char
  | [] => []
  | c :: t => let r := deduce_alphabet t; if c ∈ r then r else c :: r

/-- The closing check of `GBFeature.sequence` (lines 276-280): every character
of the deduced alphabet must be an IUPAC character, otherwise `ValueError`. -/
def checkCharset (s : List Char) : Except GBErr (List Char) :=
  if (deduce_alphabet s).all (fun c => c ∈ iupac_characters) then .ok s
  else .error .valueError

/-! ### The range grammar scanners (the two `re.compile` patterns) -/

/-- Character class `[0-9<>.,]` of `gb_func_finder`. -/
def rangeClass (c : Char) : Bool :=
  c.isDigit || c = '<' || c = '>' || c = '.' || c = ','

/-- Character class `[GATCU]` of `gb_func_finder_2`. -/
def baseClass (c : Char) : Bool :=
  c = 'G' || c = 'A' || c = 'T' || c = 'C' || c = 'U'

/-- Match `\((cls)+\)` at the head of `s`, returning the parenthesised match
and the rest of the string.  The class excludes `)`, so the greedy `+` run is
the maximal `takeWhile` and no backtracking arises. -/
def matchParen (cls : Char → Bool) (s : List Char) :
    Option (List Char × List Char) :=
  match s with
  | '(' :: t =>
    let run := t.takeWhile cls
    if run.isEmpty then none
    else
      match t.drop run.length with
      | ')' :: rest => some ('(' :: (run ++ [')']), rest)
      | _ => none
  | _ => none

/-- Try to match `(join|complement|order)\((cls)+\)` at the head of `s`.  The
three keywords start with distinct letters, so at most one alternative can
apply at a given position. -/
def kwMatch (cls : Char → Bool) (s : List Char) :
    Option (List Char × List Char × List Char) :=
  if (cs "join").isPrefixOf s then
    match matchParen cls (s.drop 4) with
    | some (args, rest) => some (cs "join", args, rest)
    | none => none
  else if (cs "complement").isPrefixOf s then
    match matchParen cls (s.drop 10) with
    | some (args, rest) => some (cs "complement", args, rest)
    | none => none
  else if (cs "order").isPrefixOf s then
    match matchParen cls (s.drop 5) with
    | some (args, rest) => some (cs "order", args, rest)
    | none => none
  else none

/-- Worker for `findall`: scan left to right, collecting non-overlapping
matches and resuming after each match.  Each step consumes at least one
character, so fuel initialised with the string length never runs out. -/
def scanGo (cls : Char → Bool) : Nat → List Char → List (List Char × List Char)
  | 0, _ => []
  | fuel + 1, s =>
    match s with
    | [] => []
    | a :: t =>
      match kwMatch cls (a :: t) with
      | some (name, args, rest) => (name, args) :: scanGo cls fuel rest
      | none => scanGo cls fuel t

/-- `gb_func_finder.findall` / `gb_func_finder_2.findall`, as a list of
`(function name, parenthesised argument)` pairs. -/
def findall (cls : Char → Bool) (s : List Char) : List (List Char × List Char) :=
  scanGo cls s.length s

/-! ### Range resolution (`GBFeature._nativise` and the function tables) -/

/-- `Except`-valued traversal used for the Python list comprehensions whose
element conversions can raise. -/
def mapMExcept (f : α → Except GBErr β) : List α → Except GBErr (List β)
  | [] => .ok []
  | a :: t => do
    let b ← f a
    let r ← mapMExcept f t
    .ok (b :: r)

/-- `Option`-valued traversal for `[int(x) for x in ...]`. -/
def traverseInt : List (List Char) → Option (List Int)
  | [] => some []
  | a :: t =>
    match parseInt a, traverseInt t with
    | some b, some r => some (b :: r)
    | _, _ => none

/-- `GBFeature._nativise`: `"(x..y,z..w)"` becomes `[(x-1, y), (z-1, w)]`.
The source's `subexpression.strip("<>")` discards its result (the stripped
copy is never assigned), so fuzzy markers reach `int()` and raise
`ValueError`; the model therefore performs no such strip either.  A
subexpression with fewer than two `..`-separated parts raises `IndexError`;
extra parts beyond the first two are ignored. -/
def nativise (gb_range_expression : List Char) :
    Except GBErr (List (Int × Int)) :=
  let s := pyStripChars (pyStripWs gb_range_expression) ['(', ')']
  mapMExcept
    (fun sub =>
      match traverseInt (pySplit (cs "..") sub) with
      | none => .error .valueError
      | some ints =>
        match ints with
        | a :: b :: _ => .ok (a - 1, b)
        | _ => .error .indexError)
    (pySplit [','] s)

/-- `GBFeature._gb_join`: fetch each subrange of the parent sequence and
concatenate in written order. -/
def gb_join (joinrange : List Char) (seq : List Char) :
    Except GBErr (List Char) := do
  let prs ← nativise joinrange
  .ok (prs.map (fun p => pySlice seq p.1 p.2)).flatten

/-- `GBFeature._gb_complement`: fetch the first subrange and reverse
complement it.  (The source's `try/except IndexError` around the slice is
dead code: Python slicing cannot raise `IndexError`.) -/
def gb_complement (c_range : List Char) (seq : List Char) :
    Except GBErr (List Char) := do
  let prs ← nativise c_range
  match prs with
  | [] => .error .indexError
  | p :: _ => get_complement (pySlice seq p.1 p.2)

/-- `GBFeature._gb_order`: take the first subrange's start and the last
subrange's end and return the whole contiguous span between them, raising
`NotImplementedError` when the start exceeds the end. -/
def gb_order (orderrange : List Char) (seq : List Char) :
    Except GBErr (List Char) := do
  let prs ← nativise orderrange
  match prs with
  | [] => .error .indexError
  | p :: t =>
    let startbase := p.1
    let finishbase := (t.getLastD p).2
    if startbase > finishbase then .error .notImplemented
    else .ok (pySlice seq startbase finishbase)

/-- `GBFeature._join` (hybrid): `"(TTCAG,GAAC)"` becomes `"TTCAGGAAC"` —
strip, drop the flanking parentheses, delete the commas. -/
def hybrid_join (joinrange : List Char) : List Char :=
  List.intercalate []
    (pySplit [','] (pyStripChars (pyStripWs joinrange) ['(', ')']))

/-- `GBFeature._complement` (hybrid): strip the parentheses and reverse
complement the enclosed bases. -/
def hybrid_complement (c_string : List Char) : Except GBErr (List Char) :=
  get_complement (pyStripChars (pyStripWs c_string) ['(', ')'])

/-- Dispatch through `self.gb_funcs` (first, range-valued round). -/
def evalGBFunc (name args seq : List Char) : Except GBErr (List Char) :=
  if name = cs "join" then gb_join args seq
  else if name = cs "complement" then gb_complement args seq
  else if name = cs "order" then gb_order args seq
  else .error .keyError

/-- Dispatch through `self.hybrid_funcs` (second, base-valued round).
`GBFeature._order` unconditionally raises `NotImplementedError`. -/
def evalHybridFunc (name args : List Char) : Except GBErr (List Char) :=
  if name = cs "join" then .ok (hybrid_join args)
  else if name = cs "complement" then hybrid_complement args
  else if name = cs "order" then .error .notImplemented
  else .error .keyError

/-- One resolution loop of `GBFeature.sequence`: resolve each found function
call and substitute its output for the call text inside the working string. -/
def resolveFuncs (eval : List Char → List Char → Except GBErr (List Char)) :
    List (List Char × List Char) → List Char → Except GBErr (List Char)
  | [], acc => .ok acc
  | (name, args) :: rest, acc => do
    let v ← eval name args
    resolveFuncs eval rest (pyReplace acc (name ++ args) v)

/-- Python `str.isnumeric` for the ASCII span lines the parser sees. -/
def isnumeric (l : List Char) : Bool := !l.isEmpty && l.all Char.isDigit

/-- The body of the `GBFeature.sequence` property past the numeric shortcut:
reject cross references, strip fuzzy markers, substitute `^`, run the two
regex-resolution rounds (or, with no function calls, slice the plain range),
and finally validate the alphabet. -/
def sequence_main (spanline : List Char) (seq : List Char) :
    Except GBErr (List Char) :=
  if ':' ∈ spanline then .error .notImplemented
  else
    let returnseq :=
      pyReplace (pyReplace (pyReplace spanline ['<'] []) ['>'] []) ['^'] (cs "..")
    match findall rangeClass spanline with
    | [] =>
      let seq_indices := (pySplit ['.'] returnseq).filter (fun x => !x.isEmpty)
      match traverseInt seq_indices with
      | none => .error .valueError
      | some ints =>
        match ints with
        | a :: b :: _ => checkCharset (pySlice seq (a - 1) b)
        | _ => .error .indexError
    | f :: fs => do
      let r1 ← resolveFuncs (fun n args => evalGBFunc n args seq)
        (f :: fs) returnseq
      let r2 ← resolveFuncs evalHybridFunc (findall baseClass r1) r1
      checkCharset r2

/-- The numeric shortcut of `GBFeature.sequence`: a span line that is all
digits indexes a single base (1-based), bypassing both the cache and the
alphabet check. -/
def numericEval (spanline : List Char) (seq : List Char) :
    Except GBErr (List Char) :=
  match parseNatDigits spanline with
  | some n => pyIndex seq ((n : Int) - 1)
  | none => .error .valueError

/-- `GBFeature.sequence` evaluated on a feature with an empty cache. -/
def feature_sequence (spanline : List Char) (seq : List Char) :
    Except GBErr (List Char) :=
  if isnumeric spanline then numericEval spanline seq
  else sequence_main spanline seq

/-- The mutable part of a `GBFeature` relevant to sequence evaluation:
its span line and its `_sequence` memoization slot (`''` when unset). -/
structure FeatState where
  spanline : List Char
  cached : List Char
  deriving DecidableEq

/-- `GBFeature.sequence` as a state transformer: return the cached string
when one is present; otherwise evaluate, and — only on the successful main
path and only when the record-level `cache_sequences` flag is set — store the
result in `_sequence`.  The numeric shortcut returns before the cache write. -/
def feature_sequence_run (st : FeatState) (seq : List Char) (flag : Bool) :
    Except GBErr (List Char) × FeatState :=
  if !st.cached.isEmpty then (.ok st.cached, st)
  else if isnumeric st.spanline then (numericEval st.spanline seq, st)
  else
    match sequence_main st.spanline seq with
    | .ok r => (.ok r, if flag then { st with cached := r } else st)
    | .error e => (.error e, st)

/-! ### `GenbankFile` construction (projected onto the sequence field)

The claims about record construction concern whether parsing happens at all,
so the record model is projected onto the `Sequence` entry together with the
`cache_sequences` flag.  The projection is exact: of all the block handlers
in `GenbankFile.block_parsers`, only `process_sequence` writes `Sequence`,
every other handler (and the skip path for unrecognised keywords) leaves it
untouched. -/

/-- Python `str.splitlines` for `\n`-separated text (the only terminator
occurring in GenBank flat files). -/
def splitLines (s : List Char) : List (List Char) := pySplit ['\n'] s

/-- `GenbankFile.extract_indent_blocks`: group the stripped file's lines into
top-level blocks — a line whose first character is not a space starts a new
block; blank lines are skipped. -/
def extractBlocksGo : List (List Char) → List (List Char) →
    List (List (List Char))
  | [], block => if block.isEmpty then [] else [block]
  | line :: rest, block =>
    if line.isEmpty then extractBlocksGo rest block
    else if (pyStripWs line).isEmpty then extractBlocksGo rest block
    else
      match line with
      | [] => extractBlocksGo rest block
      | c :: _ =>
        if c ≠ ' ' ∧ ¬block.isEmpty then
          block :: extractBlocksGo rest [line]
        else extractBlocksGo rest (block ++ [line])

def extract_indent_blocks (gbfile_contents : List Char) :
    List (List (List Char)) :=
  extractBlocksGo (splitLines (pyStripWs gbfile_contents)) []

/-- `GenbankFile.process_sequence`: walk the `ORIGIN` block, skipping the
`ORIGIN` line and blank lines, stopping at `//`, and for every other line
stripping whitespace and flanking position digits, deleting spaces and
upper-casing. -/
def process_sequence_lines : List (List Char) → List (List Char)
  | [] => []
  | line :: rest =>
    let st := pyStripWs line
    if st.isEmpty then process_sequence_lines rest
    else if st = cs "//" then []
    else if st = cs "ORIGIN" then process_sequence_lines rest
    else
      (pyReplace (pyStripChars st (cs "1234567890")) [' '] []).map Char.toUpper
        :: process_sequence_lines rest

/-- The first word of a block's first line, upper-cased — the dispatch key of
`GenbankFile.process_indent_blocks`. -/
def blockFirstword (block : List (List Char)) : List Char :=
  (pyStripWs (pySplitWs block.headI).headI).map Char.toUpper

/-- The `GenbankFile` state tracked by this development: the `Sequence` entry
and the `cache_sequences` flag. -/
structure GenbankRecord where
  Sequence : List Char
  cache_sequences : Bool
  deriving DecidableEq

/-- `GenbankFile.process_indent_blocks`, projected onto `Sequence`: an
`ORIGIN` block overwrites the sequence; every other block — the remaining
handlers of `block_parsers`, the `//` no-op and the warn-and-skip path for
unknown keywords — leaves it unchanged. -/
def process_indent_blocks (blocks : List (List (List Char))) : List Char :=
  blocks.foldl
    (fun acc block =>
      if blockFirstword block = cs "ORIGIN" then
        (process_sequence_lines block).flatten
      else acc)
    []

/-- `GenbankFile.__init__`.  `file_contents` is the optional in-memory text;
`file_on_disk` stands for the contents of the file at `file_name` (`none`
when no `file_name` is supplied; the file is assumed readable).  Following
the source, the block extraction and processing calls live inside the
`if not file_contents:` branch, so a truthy `file_contents` argument skips
parsing entirely and the record keeps its empty defaults. -/
def genbank_init (file_contents : Option (List Char))
    (file_on_disk : Option (List Char)) (cache : Bool) :
    Except GBErr GenbankRecord :=
  let contentsTruthy :=
    match file_contents with
    | some l => !l.isEmpty
    | none => false
  if contentsTruthy then
    .ok { Sequence := [], cache_sequences := cache }
  else
    match file_on_disk with
    | none => .error .valueError
    | some content =>
      .ok { Sequence := process_indent_blocks (extract_indent_blocks content)
            cache_sequences := cache }

/-! ### Utility lemmas about the Python string primitives -/

theorem except_bind_ok {α β : Type} (a : α) (f : α → Except GBErr β) :
    (Except.ok a >>= f) = f a := rfl

theorem dropWhile_all_false {p : Char → Bool} :
    ∀ {l : List Char}, (∀ x ∈ l, p x = false) → l.dropWhile p = l := by
  intro l h
  induction l with
  | nil => rfl
  | cons a t ih =>
    have ha : p a = false := h a (by simp)
    simp [List.dropWhile, ha]

theorem mem_dropWhile_iff {p : Char → Bool} {c : Char} (hc : p c = false) :
    ∀ {l : List Char}, c ∈ l.dropWhile p ↔ c ∈ l := by
  intro l
  induction l with
  | nil => simp
  | cons a t ih =>
    by_cases ha : p a = true
    · simp only [List.dropWhile, ha, ih]
      constructor
      · intro h; exact List.mem_cons_of_mem a h
      · intro h
        rcases List.mem_cons.1 h with h1 | h1
        · exact absurd (h1 ▸ ha) (by simp [hc])
        · exact h1
    · simp [List.dropWhile, ha]

theorem mem_pyStripWs {c : Char} (hc : isPyWs c = false) {l : List Char} :
    c ∈ pyStripWs l ↔ c ∈ l := by
  unfold pyStripWs
  rw [List.mem_reverse, mem_dropWhile_iff hc, List.mem_reverse,
    mem_dropWhile_iff hc]

theorem pyStripWs_noop {l : List Char} (h : ∀ x ∈ l, isPyWs x = false) :
    pyStripWs l = l := by
  unfold pyStripWs
  rw [dropWhile_all_false h, dropWhile_all_false (by simpa using h),
    List.reverse_reverse]

theorem replGo_single_eq_filter (c : Char) :
    ∀ fuel (l : List Char), l.length ≤ fuel →
      replGo c [] [] fuel l = l.filter (fun x => !(x == c)) := by
  intro fuel
  induction fuel with
  | zero => intro l h; simp at h; simp [h, replGo]
  | succ n ih =>
    intro l h
    match l with
    | [] => rfl
    | a :: t =>
      simp only [List.length_cons, Nat.succ_le_succ_iff] at h
      by_cases hac : c = a
      · subst hac
        simp [replGo, List.isPrefixOf, List.filter, ih t h]
      · have : (c == a) = false := by simp [hac]
        simp [replGo, List.isPrefixOf, this, List.filter, ih t h,
          BEq.symm_false this]

theorem pyReplace_single_eq_filter (c : Char) (l : List Char) :
    pyReplace l [c] [] = l.filter (fun x => !(x == c)) :=
  replGo_single_eq_filter c l.length l (Nat.le_refl _)

theorem replGo_single_noop {c : Char} (new : List Char) :
    ∀ fuel (l : List Char), c ∉ l → replGo c [] new fuel l = l := by
  intro fuel
  induction fuel with
  | zero => intro l _; rfl
  | succ n ih =>
    intro l hc
    match l with
    | [] => rfl
    | a :: t =>
      rw [List.mem_cons, not_or] at hc
      have hca : (c == a) = false := by simp [hc.1]
      simp [replGo, List.isPrefixOf, hca, ih t hc.2]

theorem pyReplace_single_noop {c : Char} {l : List Char} (new : List Char)
    (h : c ∉ l) : pyReplace l [c] new = l :=
  replGo_single_noop new l.length l h

theorem parseNatDigits_some {l : List Char} {n : Nat}
    (h : parseNatDigits l = some n) :
    l ≠ [] ∧ ∀ c ∈ l, c.isDigit = true := by
  unfold parseNatDigits at h
  by_cases h1 : l.isEmpty
  · simp [h1] at h
  · by_cases h2 : l.all Char.isDigit
    · exact ⟨by simpa using h1, by simpa [List.all_eq_true] using h2⟩
    · simp [h1, h2] at h

theorem parseInt_of_nat {l : List Char} {n : Nat}
    (h : parseNatDigits l = some n) : parseInt l = some (n : Int) := by
  obtain ⟨hne, hdig⟩ := parseNatDigits_some h
  match l with
  | [] => exact absurd rfl hne
  | a :: t =>
    have ha : a.isDigit = true := hdig a (by simp)
    have hnd : a ≠ '-' := by
      intro hc; rw [hc] at ha; simp [Char.isDigit] at ha
    show parseInt (a :: t) = some (n : Int)
    unfold parseInt
    split
    · rename_i t2 heq
      injection heq with h1 h2
      exact absurd h1 hnd
    · simp [h]

theorem digit_ne {c d : Char} (hc : c.isDigit = true) (hd : d.isDigit = false) :
    c ≠ d := by
  intro h; rw [h] at hc; rw [hc] at hd; cases hd

theorem splitGo_fuel {c0 : Char} {cr : List Char} :
    ∀ f1 f2 (s : List Char), s.length ≤ f1 → s.length ≤ f2 →
      splitGo c0 cr f1 s = splitGo c0 cr f2 s := by
  intro f1
  induction f1 with
  | zero =>
    intro f2 s h1 _
    have : s = [] := List.length_eq_zero.1 (Nat.le_zero.1 h1)
    subst this
    cases f2 <;> rfl
  | succ m ih =>
    intro f2 s h1 h2
    match s with
    | [] => cases f2 <;> rfl
    | a :: t =>
      match f2 with
      | 0 => simp at h2
      | k + 1 =>
        simp only [List.length_cons, Nat.succ_le_succ_iff] at h1 h2
        simp only [splitGo]
        by_cases hp : (c0 :: cr).isPrefixOf (a :: t)
        · have hd1 : (t.drop cr.length).length ≤ m :=
            Nat.le_trans (by simp) h1
          have hd2 : (t.drop cr.length).length ≤ k :=
            Nat.le_trans (by simp) h2
          simp [hp, ih k (t.drop cr.length) hd1 hd2]
        · rw [if_neg hp, if_neg hp, ih k t h1 h2]

theorem pySplit_no_head {c0 : Char} {cr : List Char} :
    ∀ {l : List Char}, (∀ x ∈ l, x ≠ c0) → pySplit (c0 :: cr) l = [l] := by
  intro l
  induction l with
  | nil => intro _; rfl
  | cons a t ih =>
    intro h
    have hne : (c0 == a) = false := by
      simp [Ne.symm (h a (by simp))]
    have hpre : (c0 :: cr).isPrefixOf (a :: t) = false := by
      rw [List.isPrefixOf_cons₂, hne, Bool.false_and]
    simp only [pySplit, List.length_cons, splitGo, hpre, Bool.false_eq_true,
      if_false]
    have := ih (fun x hx => h x (by simp [hx]))
    simp only [pySplit] at this
    rw [this]

theorem pySplit_append {c0 : Char} {cr : List Char} :
    ∀ (l r : List Char), (∀ x ∈ l, x ≠ c0) →
      pySplit (c0 :: cr) (l ++ (c0 :: cr) ++ r) = l :: pySplit (c0 :: cr) r := by
  intro l
  induction l with
  | nil =>
    intro r _
    have hpre : (c0 :: cr).isPrefixOf (c0 :: (cr ++ r)) = true := by
      rw [List.isPrefixOf_cons₂, beq_self_eq_true, Bool.true_and,
        List.isPrefixOf_iff_prefix]
      exact List.prefix_append cr r
    simp only [List.nil_append, List.cons_append, pySplit, List.length_cons,
      splitGo, hpre, if_true, List.drop_left]
    congr 1
    exact splitGo_fuel _ _ r
      (by simp only [List.append_eq, List.length_append]; omega)
      (Nat.le_refl _)
  | cons a l2 ih =>
    intro r h
    have hne : (c0 == a) = false := by
      simp [Ne.symm (h a (by simp))]
    have hpre : (c0 :: cr).isPrefixOf
        (a :: (l2 ++ (c0 :: cr) ++ r)) = false := by
      rw [List.isPrefixOf_cons₂, hne, Bool.false_and]
    have ht := ih r (fun x hx => h x (by simp [hx]))
    simp only [pySplit] at ht
    simp only [List.cons_append, pySplit, List.length_cons, splitGo,
      List.append_eq] at hpre ht ⊢
    simp only [hpre, Bool.false_eq_true, if_false, ht]

theorem kwMatch_none {cls : Char → Bool} {a : Char} {t : List Char}
    (hj : a ≠ 'j') (hc : a ≠ 'c') (ho : a ≠ 'o') :
    kwMatch cls (a :: t) = none := by
  have h1 : (cs "join").isPrefixOf (a :: t) = false := by
    show (['j', 'o', 'i', 'n'] : List Char).isPrefixOf (a :: t) = false
    rw [List.isPrefixOf_cons₂]
    simp [Ne.symm hj]
  have h2 : (cs "complement").isPrefixOf (a :: t) = false := by
    show ('c' :: cs "omplement").isPrefixOf (a :: t) = false
    rw [List.isPrefixOf_cons₂]
    simp [Ne.symm hc]
  have h3 : (cs "order").isPrefixOf (a :: t) = false := by
    show ('o' :: cs "rder").isPrefixOf (a :: t) = false
    rw [List.isPrefixOf_cons₂]
    simp [Ne.symm ho]
  simp [kwMatch, h1, h2, h3]

theorem findall_nil {cls : Char → Bool} :
    ∀ fuel (s : List Char),
      (∀ x ∈ s, x ≠ 'j' ∧ x ≠ 'c' ∧ x ≠ 'o') → scanGo cls fuel s = [] := by
  intro fuel
  induction fuel with
  | zero => intro s _; rfl
  | succ n ih =>
    intro s h
    match s with
    | [] => rfl
    | a :: t =>
      obtain ⟨hj, hc, ho⟩ := h a (by simp)
      simp only [scanGo, kwMatch_none hj hc ho]
      exact ih t (fun x hx => h x (by simp [hx]))

theorem findall_nil_of_no_kw {cls : Char → Bool} {s : List Char}
    (h : ∀ x ∈ s, x ≠ 'j' ∧ x ≠ 'c' ∧ x ≠ 'o') : findall cls s = [] :=
  findall_nil s.length s h

theorem mem_deduce_alphabet {c : Char} :
    ∀ {l : List Char}, c ∈ deduce_alphabet l → c ∈ l := by
  intro l
  induction l with
  | nil => simp [deduce_alphabet]
  | cons a t ih =>
    simp only [deduce_alphabet]
    by_cases hmem : a ∈ deduce_alphabet t
    · intro h
      simp only [hmem, if_true] at h
      exact List.mem_cons_of_mem a (ih h)
    · intro h
      simp only [hmem, if_false] at h
      rcases List.mem_cons.1 h with h1 | h1
      · exact h1 ▸ List.mem_cons_self a t
      · exact List.mem_cons_of_mem a (ih h1)

theorem checkCharset_ok {s : List Char}
    (h : ∀ c ∈ s, c ∈ iupac_characters) : checkCharset s = .ok s := by
  unfold checkCharset
  rw [if_pos]
  rw [List.all_eq_true]
  intro c hc
  simpa using h c (mem_deduce_alphabet hc)

theorem pySlice_nonneg {s : List Char} {a b : Int} (ha : 0 ≤ a) (hb : 0 ≤ b) :
    pySlice s a b = (s.take b.toNat).drop a.toNat := by
  simp only [pySlice]
  rw [if_neg (by omega), if_neg (by omega)]

/-- Evaluating a feature whose span line is the concrete range `d1..d2`
runs the plain-range branch of `GBFeature.sequence`: the parsed endpoints are
turned into the Python slice `seq[d1-1:d2]` and the result only passes
through the closing alphabet check. -/
theorem sequence_plain {d1 d2 seq : List Char} {a b : Nat}
    (h1 : parseNatDigits d1 = some a) (h2 : parseNatDigits d2 = some b) :
    feature_sequence (d1 ++ '.' :: '.' :: d2) seq =
      checkCharset (pySlice seq ((a : Int) - 1) (b : Int)) := by
  obtain ⟨hne1, hdig1⟩ := parseNatDigits_some h1
  obtain ⟨hne2, hdig2⟩ := parseNatDigits_some h2
  set sp := d1 ++ '.' :: '.' :: d2 with hsp
  have hchars : ∀ x ∈ sp, x.isDigit = true ∨ x = '.' := by
    intro x hx
    rw [hsp, List.mem_append, List.mem_cons, List.mem_cons] at hx
    rcases hx with h | h | h | h
    · exact Or.inl (hdig1 x h)
    · exact Or.inr h
    · exact Or.inr h
    · exact Or.inl (hdig2 x h)
  have hnm : ∀ c : Char, c.isDigit = false → c ≠ '.' → c ∉ sp := by
    intro c hcd hcdot hmem
    rcases hchars c hmem with h | h
    · rw [h] at hcd; cases hcd
    · exact hcdot h
  have hnum : isnumeric sp = false := by
    unfold isnumeric
    have hall : sp.all Char.isDigit = false := by
      rw [List.all_eq_false]
      refine ⟨'.', by rw [hsp]; simp, by decide⟩
    simp [hall]
  have hnokw : ∀ x ∈ sp, x ≠ 'j' ∧ x ≠ 'c' ∧ x ≠ 'o' := by
    intro x hx
    rcases hchars x hx with h | h
    · exact ⟨digit_ne h (by decide), digit_ne h (by decide),
        digit_ne h (by decide)⟩
    · subst h
      exact ⟨by decide, by decide, by decide⟩
  have hsplit : pySplit ['.'] sp = [d1, [], d2] := by
    rw [hsp]
    have e1 : d1 ++ '.' :: '.' :: d2 =
        d1 ++ ('.' :: ([] : List Char)) ++ ('.' :: d2) := by simp
    rw [e1, pySplit_append d1 ('.' :: d2)
      (fun x hx => digit_ne (hdig1 x hx) (by decide))]
    have e2 : ('.' : Char) :: d2 = [] ++ ('.' :: ([] : List Char)) ++ d2 := by
      simp
    rw [e2, pySplit_append [] d2 (by simp)]
    rw [pySplit_no_head (fun x hx => digit_ne (hdig2 x hx) (by decide))]
  have hie1 : d1.isEmpty = false := by
    cases d1 with
    | nil => exact absurd rfl hne1
    | cons x t => rfl
  have hie2 : d2.isEmpty = false := by
    cases d2 with
    | nil => exact absurd rfl hne2
    | cons x t => rfl
  have htrav : traverseInt [d1, d2] = some [(a : Int), (b : Int)] := by
    simp [traverseInt, parseInt_of_nat h1, parseInt_of_nat h2]
  unfold feature_sequence
  rw [hnum]
  simp only [Bool.false_eq_true, if_false]
  unfold sequence_main
  rw [if_neg (hnm ':' (by decide) (by decide))]
  rw [pyReplace_single_noop _ (hnm '<' (by decide) (by decide))]
  rw [pyReplace_single_noop _ (hnm '>' (by decide) (by decide))]
  rw [pyReplace_single_noop _ (hnm '^' (by decide) (by decide))]
  rw [findall_nil_of_no_kw hnokw]
  simp only [hsplit, List.filter, hie1, hie2, Bool.not_false, Bool.not_true,
    List.isEmpty_nil, htrav]

theorem isPyWs_false_of_digit {c : Char} (h : c.isDigit = true) :
    isPyWs c = false := by
  unfold isPyWs
  simp [digit_ne h (by decide : (' ' : Char).isDigit = false),
    digit_ne h (by decide : ('\t' : Char).isDigit = false),
    digit_ne h (by decide : ('\n' : Char).isDigit = false),
    digit_ne h (by decide : ('\r' : Char).isDigit = false),
    digit_ne h (by decide : ('\x0b' : Char).isDigit = false),
    digit_ne h (by decide : ('\x0c' : Char).isDigit = false)]

/-- Characters of a `l1..l2` range text: digits of the endpoints or dots. -/
theorem rangePair_chars {l1 l2 : List Char}
    (hd1 : ∀ c ∈ l1, c.isDigit = true) (hd2 : ∀ c ∈ l2, c.isDigit = true) :
    ∀ x ∈ l1 ++ '.' :: '.' :: l2, x.isDigit = true ∨ x = '.' := by
  intro x hx
  rw [List.mem_append, List.mem_cons, List.mem_cons] at hx
  rcases hx with h | h | h | h
  · exact Or.inl (hd1 x h)
  · exact Or.inr h
  · exact Or.inr h
  · exact Or.inl (hd2 x h)

/-- Stripping `"()"` from a parenthesised expression whose interior holds no
parentheses removes exactly the flanking pair. -/
theorem pyStripChars_parens {mid : List Char}
    (h : ∀ x ∈ mid, x ≠ '(' ∧ x ≠ ')') :
    pyStripChars ('(' :: (mid ++ [')'])) ['(', ')'] = mid := by
  have hfalse : ∀ x ∈ mid, (decide (x ∈ ['(', ')'])) = false := by
    intro x hx
    obtain ⟨h1, h2⟩ := h x hx
    simp [h1, h2]
  unfold pyStripChars
  have hdw1 : List.dropWhile (fun c => decide (c ∈ ['(', ')']))
      ('(' :: (mid ++ [')'])) =
      List.dropWhile (fun c => decide (c ∈ ['(', ')'])) (mid ++ [')']) := by
    simp [List.dropWhile]
  rw [hdw1]
  cases mid with
  | nil => simp [List.dropWhile]
  | cons m0 mrest =>
    have hm0 : (decide (m0 ∈ ['(', ')'])) = false := hfalse m0 (by simp)
    have hstep1 : List.dropWhile (fun c => decide (c ∈ ['(', ')']))
        (m0 :: (mrest ++ [')'])) = m0 :: (mrest ++ [')']) :=
      List.dropWhile_cons_of_neg (by simp_all)
    rw [List.cons_append, hstep1]
    have hrev : (m0 :: (mrest ++ [')'])).reverse
        = ')' :: (m0 :: mrest).reverse := by simp
    rw [hrev, List.dropWhile_cons_of_pos (by simp)]
    rw [dropWhile_all_false (fun x hx => hfalse x (List.mem_reverse.1 hx))]
    exact List.reverse_reverse _

theorem splitDots {l1 l2 : List Char}
    (hd1 : ∀ c ∈ l1, c.isDigit = true) (hd2 : ∀ c ∈ l2, c.isDigit = true) :
    pySplit (cs "..") (l1 ++ '.' :: '.' :: l2) = [l1, l2] := by
  show pySplit ('.' :: ['.']) (l1 ++ '.' :: '.' :: l2) = [l1, l2]
  have e : l1 ++ '.' :: '.' :: l2 = l1 ++ ('.' :: ['.']) ++ l2 := by simp
  rw [e, pySplit_append l1 l2 (fun x hx => digit_ne (hd1 x hx) (by decide)),
    pySplit_no_head (fun x hx => digit_ne (hd2 x hx) (by decide))]

/-- Interpretation of one `"x..y"` subexpression inside `nativise`. -/
theorem nativise_sub {l1 l2 : List Char} {a b : Nat}
    (h1 : parseNatDigits l1 = some a) (h2 : parseNatDigits l2 = some b) :
    (match traverseInt (pySplit (cs "..") (l1 ++ '.' :: '.' :: l2)) with
      | none => Except.error GBErr.valueError
      | some ints =>
        match ints with
        | x :: y :: _ => Except.ok (x - 1, y)
        | _ => Except.error GBErr.indexError) =
      Except.ok ((a : Int) - 1, (b : Int)) := by
  obtain ⟨_, hdig1⟩ := parseNatDigits_some h1
  obtain ⟨_, hdig2⟩ := parseNatDigits_some h2
  rw [splitDots hdig1 hdig2]
  simp [traverseInt, parseInt_of_nat h1, parseInt_of_nat h2]

/-- `_nativise` on a single concrete range `"(x..y)"`. -/
theorem nativise_single {l1 l2 : List Char} {a b : Nat}
    (h1 : parseNatDigits l1 = some a) (h2 : parseNatDigits l2 = some b) :
    nativise ('(' :: ((l1 ++ '.' :: '.' :: l2) ++ [')'])) =
      .ok [((a : Int) - 1, (b : Int))] := by
  obtain ⟨_, hdig1⟩ := parseNatDigits_some h1
  obtain ⟨_, hdig2⟩ := parseNatDigits_some h2
  have hchars := rangePair_chars hdig1 hdig2
  have hws : ∀ x ∈ ('(' :: ((l1 ++ '.' :: '.' :: l2) ++ [')'])),
      isPyWs x = false := by
    intro x hx
    rcases List.mem_cons.1 hx with rfl | hx
    · decide
    · rcases List.mem_append.1 hx with hx | hx
      · rcases hchars x hx with h | rfl
        · exact isPyWs_false_of_digit h
        · decide
      · rw [List.mem_singleton] at hx
        subst hx; decide
  have hpar : ∀ x ∈ l1 ++ '.' :: '.' :: l2, x ≠ '(' ∧ x ≠ ')' := by
    intro x hx
    rcases hchars x hx with h | rfl
    · exact ⟨digit_ne h (by decide), digit_ne h (by decide)⟩
    · exact ⟨by decide, by decide⟩
  have hcomma : pySplit [','] (l1 ++ '.' :: '.' :: l2) =
      [l1 ++ '.' :: '.' :: l2] := by
    apply pySplit_no_head
    intro x hx
    rcases hchars x hx with h | rfl
    · exact digit_ne h (by decide)
    · decide
  unfold nativise
  rw [pyStripWs_noop hws, pyStripChars_parens hpar]
  simp only [hcomma, mapMExcept, nativise_sub h1 h2, except_bind_ok]

/-- `_nativise` on a two-range expression `"(x..y,z..w)"`. -/
theorem nativise_pair {l1 l2 l3 l4 : List Char} {a b c d : Nat}
    (h1 : parseNatDigits l1 = some a) (h2 : parseNatDigits l2 = some b)
    (h3 : parseNatDigits l3 = some c) (h4 : parseNatDigits l4 = some d) :
    nativise ('(' :: (((l1 ++ '.' :: '.' :: l2) ++
        ',' :: (l3 ++ '.' :: '.' :: l4)) ++ [')'])) =
      .ok [((a : Int) - 1, (b : Int)), ((c : Int) - 1, (d : Int))] := by
  obtain ⟨_, hdig1⟩ := parseNatDigits_some h1
  obtain ⟨_, hdig2⟩ := parseNatDigits_some h2
  obtain ⟨_, hdig3⟩ := parseNatDigits_some h3
  obtain ⟨_, hdig4⟩ := parseNatDigits_some h4
  have hchars1 := rangePair_chars hdig1 hdig2
  have hchars2 := rangePair_chars hdig3 hdig4
  have hmid : ∀ x ∈ (l1 ++ '.' :: '.' :: l2) ++ ',' :: (l3 ++ '.' :: '.' :: l4),
      x.isDigit = true ∨ x = '.' ∨ x = ',' := by
    intro x hx
    rcases List.mem_append.1 hx with hx | hx
    · rcases hchars1 x hx with h | h
      · exact Or.inl h
      · exact Or.inr (Or.inl h)
    · rcases List.mem_cons.1 hx with rfl | hx
      · exact Or.inr (Or.inr rfl)
      · rcases hchars2 x hx with h | h
        · exact Or.inl h
        · exact Or.inr (Or.inl h)
  have hws : ∀ x ∈ ('(' :: (((l1 ++ '.' :: '.' :: l2) ++
      ',' :: (l3 ++ '.' :: '.' :: l4)) ++ [')'])), isPyWs x = false := by
    intro x hx
    rcases List.mem_cons.1 hx with rfl | hx
    · decide
    · rcases List.mem_append.1 hx with hx | hx
      · rcases hmid x hx with h | rfl | rfl
        · exact isPyWs_false_of_digit h
        · decide
        · decide
      · rw [List.mem_singleton] at hx
        subst hx; decide
  have hpar : ∀ x ∈ (l1 ++ '.' :: '.' :: l2) ++
      ',' :: (l3 ++ '.' :: '.' :: l4), x ≠ '(' ∧ x ≠ ')' := by
    intro x hx
    rcases hmid x hx with h | rfl | rfl
    · exact ⟨digit_ne h (by decide), digit_ne h (by decide)⟩
    · exact ⟨by decide, by decide⟩
    · exact ⟨by decide, by decide⟩
  have hcomma : pySplit [','] ((l1 ++ '.' :: '.' :: l2) ++
      ',' :: (l3 ++ '.' :: '.' :: l4)) =
      [l1 ++ '.' :: '.' :: l2, l3 ++ '.' :: '.' :: l4] := by
    have e : (l1 ++ '.' :: '.' :: l2) ++ ',' :: (l3 ++ '.' :: '.' :: l4) =
        (l1 ++ '.' :: '.' :: l2) ++ (',' :: ([] : List Char)) ++
          (l3 ++ '.' :: '.' :: l4) := by simp
    rw [e, pySplit_append _ _ (fun x hx => by
      rcases hchars1 x hx with h | rfl
      · exact digit_ne h (by decide)
      · decide)]
    rw [pySplit_no_head (fun x hx => by
      rcases hchars2 x hx with h | rfl
      · exact digit_ne h (by decide)
      · decide)]
  unfold nativise
  rw [pyStripWs_noop hws, pyStripChars_parens hpar]
  simp only [hcomma, mapMExcept, nativise_sub h1 h2, nativise_sub h3 h4,
    except_bind_ok]

theorem dictLookup_dictInsert (m : List (List Char × List Char))
    (k v : List Char) : dictLookup k (dictInsert m k v) = some v := by
  induction m with
  | nil => simp [dictInsert, dictLookup]
  | cons p t ih =>
    obtain ⟨k2, v2⟩ := p
    by_cases h : k2 = k
    · simp [dictInsert, dictLookup, h]
    · simp [dictInsert, dictLookup, h, ih]

theorem dictInsert_length_of_mem {m : List (List Char × List Char)}
    {k w : List Char} (h : dictLookup k m = some w) (v : List Char) :
    (dictInsert m k v).length = m.length := by
  induction m with
  | nil => simp [dictLookup] at h
  | cons p t ih =>
    obtain ⟨k2, v2⟩ := p
    by_cases hk : k2 = k
    · simp [dictInsert, hk]
    · rw [dictLookup, if_neg hk] at h
      simp [dictInsert, hk, ih h]

/-! ### Claim theorems -/

/-- C1 (counterexample): `GBFeature.store_meta` does not accumulate repeated
qualifiers into a list.  Storing two `db_xref` qualifier blocks leaves a
single dictionary entry holding only the second value; the first value
(`taxon:562`) is gone, contradicting the claimed ordered list of length 2. -/
theorem C1_counterexample :
    store_meta (store_meta [] (cs "db_xref=taxon:562")) (cs "db_xref=GeneID:99") =
      [(cs "db_xref", cs "GeneID:99")] := by decide

/-- C1 (amended): storing a qualifier block whose name equals that of an
already-stored block overwrites the entry in place: the lookup afterwards
yields only the second block's content and the dictionary does not grow. -/
theorem C1_repeat_qualifier_overwrites {m : List (List Char × List Char)}
    {b1 b2 : List Char} (h : metaName b1 = metaName b2) :
    dictLookup (metaName b2) (store_meta (store_meta m b1) b2) =
      some (metaContent b2) ∧
    (store_meta (store_meta m b1) b2).length = (store_meta m b1).length := by
  constructor
  · exact dictLookup_dictInsert _ _ _
  · show (dictInsert (store_meta m b1) (metaName b2) (metaContent b2)).length =
      (store_meta m b1).length
    apply dictInsert_length_of_mem (w := metaContent b1)
    rw [← h]
    exact dictLookup_dictInsert m (metaName b1) (metaContent b1)

theorem C1_repeat_qualifier_overwrites_witness :
    metaName (cs "db_xref=taxon:562") = metaName (cs "db_xref=GeneID:99") ∧
    (dictLookup (metaName (cs "db_xref=GeneID:99"))
        (store_meta (store_meta [] (cs "db_xref=taxon:562"))
          (cs "db_xref=GeneID:99")) =
        some (metaContent (cs "db_xref=GeneID:99")) ∧
      (store_meta (store_meta [] (cs "db_xref=taxon:562"))
          (cs "db_xref=GeneID:99")).length =
        (store_meta [] (cs "db_xref=taxon:562")).length) :=
  ⟨by decide, C1_repeat_qualifier_overwrites (by decide)⟩

/-- C9 (counterexample): a qualifier line without `=` is not skipped —
`store_meta` stores an entry mapping the stripped name to the empty string
(and the `try/except` warning path never fires, since nothing raises). -/
theorem C9_counterexample :
    store_meta [] (cs "pseudo") = [(cs "pseudo", [])] := by decide

/-- C9 (amended): a qualifier block without `=` does not abort the feature:
it is stored with the empty string as value and the remaining qualifier
blocks of the same feature are processed exactly as before. -/
theorem C9_no_equals_stored_empty {m : List (List Char × List Char)}
    {b : List Char} (h : '=' ∉ b) (rest : List (List Char)) :
    process_meta m (b :: rest) =
      process_meta (dictInsert m (metaName b) []) rest := by
  have hsplit : pySplit ['='] b = [b] :=
    pySplit_no_head (fun x hx => by rintro rfl; exact h hx)
  have hcontent : metaContent b = [] := by
    unfold metaContent
    rw [hsplit]
    simp [List.intercalate]
  unfold process_meta
  rw [List.foldl_cons]
  congr 1
  show dictInsert m (metaName b) (metaContent b) = dictInsert m (metaName b) []
  rw [hcontent]

theorem C9_no_equals_stored_empty_witness :
    ('=' ∉ cs "pseudo") ∧
    process_meta [] [cs "pseudo", cs "gene=lacZ"] =
      process_meta (dictInsert [] (metaName (cs "pseudo")) [])
        [cs "gene=lacZ"] :=
  ⟨by decide, C9_no_equals_stored_empty (by decide) _⟩

/-- C10: `GBFeature.set_span` assigns the `fuzzyboundary` attribute (always
to `True`) exactly when the span line contains a `<` or `>` marker; with no
marker the attribute is never assigned (`none`, i.e. a later read raises
`AttributeError` rather than returning `False`). -/
theorem C10_fuzzyboundary_iff_marker (s : List Char) :
    (set_span s).fuzzyboundary =
      if '<' ∈ s ∨ '>' ∈ s then some true else none := by
  have hlt : '<' ∈ (pyStripWs s).filter (fun x => !(x == ' ')) ↔ '<' ∈ s := by
    rw [List.mem_filter]
    constructor
    · intro hx
      exact (mem_pyStripWs (by decide)).1 hx.1
    · intro hx
      exact ⟨(mem_pyStripWs (by decide)).2 hx, by decide⟩
  have hgt : '>' ∈ (pyStripWs s).filter (fun x => !(x == ' ')) ↔ '>' ∈ s := by
    rw [List.mem_filter]
    constructor
    · intro hx
      exact (mem_pyStripWs (by decide)).1 hx.1
    · intro hx
      exact ⟨(mem_pyStripWs (by decide)).2 hx, by decide⟩
  simp only [set_span, pyReplace_single_eq_filter]
  by_cases h : '<' ∈ s ∨ '>' ∈ s
  · rw [if_pos (by
      rcases h with h | h
      · exact Or.inl (hlt.2 h)
      · exact Or.inr (hgt.2 h)), if_pos h]
  · rw [if_neg (by
      intro hc
      rcases hc with hc | hc
      · exact h (Or.inl (hlt.1 hc))
      · exact h (Or.inr (hgt.1 hc))), if_neg h]

/-- C2: `GenbankFile.__init__` calls `extract_indent_blocks` and
`process_indent_blocks` only inside its `if not file_contents:` branch, so a
record constructed from an in-memory text blob is never parsed (its sequence
stays empty), while the same text read from a file parses to `"AAACCGGG"`;
supplying neither source raises `ValueError`.  This contradicts the class's
own docstring, which promises that `file_contents` "should be a string as if
file.read() directly from a file" and is parsed like a file. -/
theorem C2_contents_branch_skips_parsing :
    genbank_init (some (cs "ORIGIN\n        1 aaacc ggg\n//")) none true =
      .ok { Sequence := [], cache_sequences := true } ∧
    genbank_init none (some (cs "ORIGIN\n        1 aaacc ggg\n//")) true =
      .ok { Sequence := cs "AAACCGGG", cache_sequences := true } ∧
    genbank_init none none true = .error .valueError :=
  ⟨rfl, rfl, rfl⟩

/-- C3 (counterexample): `order` is not evaluated like `join`.  On sequence
`AAACCGGG`, `order (1..3,5..7)` returns the whole span `AAACCGG` — including
position 4, which lies between the sub-ranges — while `join (1..3,5..7)`
returns the concatenation `AAACGG`; and `order (5..7,1..3)` raises
`NotImplementedError` where the same `join` succeeds. -/
theorem C3_counterexample :
    gb_order (cs "(1..3,5..7)") (cs "AAACCGGG") = .ok (cs "AAACCGG") ∧
    gb_join (cs "(1..3,5..7)") (cs "AAACCGGG") = .ok (cs "AAACGG") ∧
    cs "AAACCGG" ≠ cs "AAACGG" ∧
    gb_order (cs "(5..7,1..3)") (cs "AAACCGGG") = .error .notImplemented ∧
    gb_join (cs "(5..7,1..3)") (cs "AAACCGGG") = .ok (cs "CGGAAA") :=
  ⟨rfl, rfl, by decide, rfl, rfl⟩

/-- C3 (amended): `_gb_order` on `(x..y,z..w)` materializes the contiguous
span from the first sub-range's start to the last sub-range's end — the same
string `join` produces for the single range `x..w` — provided that start does
not exceed that end (otherwise it raises `NotImplementedError`). -/
theorem C3_order_spans_first_to_last {seq l1 l2 l3 l4 : List Char}
    {a b c d : Nat}
    (h1 : parseNatDigits l1 = some a) (h2 : parseNatDigits l2 = some b)
    (h3 : parseNatDigits l3 = some c) (h4 : parseNatDigits l4 = some d)
    (had : a ≤ d + 1) :
    gb_order ('(' :: (((l1 ++ '.' :: '.' :: l2) ++
        ',' :: (l3 ++ '.' :: '.' :: l4)) ++ [')'])) seq =
      gb_join ('(' :: ((l1 ++ '.' :: '.' :: l4) ++ [')'])) seq := by
  unfold gb_order gb_join
  rw [nativise_pair h1 h2 h3 h4, nativise_single h1 h4]
  simp only [except_bind_ok, List.getLastD_cons, List.getLastD_nil,
    List.map_cons, List.map_nil, List.flatten_cons, List.flatten_nil,
    List.append_nil]
  rw [if_neg (by omega : ¬((a : Int) - 1 > (d : Int)))]

theorem C3_order_spans_first_to_last_witness :
    parseNatDigits (cs "1") = some 1 ∧ parseNatDigits (cs "3") = some 3 ∧
    parseNatDigits (cs "5") = some 5 ∧ parseNatDigits (cs "7") = some 7 ∧
    1 ≤ 7 + 1 ∧
    gb_order ('(' :: (((cs "1" ++ '.' :: '.' :: cs "3") ++
        ',' :: (cs "5" ++ '.' :: '.' :: cs "7")) ++ [')'])) (cs "AAACCGGG") =
      gb_join ('(' :: ((cs "1" ++ '.' :: '.' :: cs "7") ++ [')']))
        (cs "AAACCGGG") :=
  ⟨by decide, by decide, by decide, by decide, by decide,
    @C3_order_spans_first_to_last (cs "AAACCGGG") (cs "1") (cs "3") (cs "5")
      (cs "7") 1 3 5 7 (by decide) (by decide) (by decide) (by decide)
      (by decide)⟩

/-- C4 (counterexample): a range whose end (9) exceeds the sequence length
(4) does not fail — Python slicing clamps silently, and since no
`RangeOutOfBounds` check exists anywhere in the code, evaluation returns the
truncated 3-character string `AAC` instead of the claimed typed error. -/
theorem C4_counterexample :
    feature_sequence (cs "2..9") (cs "AAAC") = .ok (cs "AAC") ∧
    ∀ e : GBErr, feature_sequence (cs "2..9") (cs "AAAC") ≠ .error e := by
  refine ⟨rfl, fun e h => ?_⟩
  rw [show feature_sequence (cs "2..9") (cs "AAAC") = .ok (cs "AAC") from rfl]
    at h
  cases h

/-- C4 (amended): for a concrete range `start..end` with `end` strictly
greater than the sequence length, `GBFeature.sequence` silently returns the
truncated substring from `start-1` to the end of the sequence; no error is
raised. -/
theorem C4_overlong_range_truncates {seq d1 d2 : List Char} {a b : Nat}
    (h1 : parseNatDigits d1 = some a) (h2 : parseNatDigits d2 = some b)
    (ha : 1 ≤ a) (hb : seq.length < b)
    (hiupac : ∀ c ∈ seq, c ∈ iupac_characters) :
    feature_sequence (d1 ++ '.' :: '.' :: d2) seq = .ok (seq.drop (a - 1)) := by
  have e1 : ((a : Int) - 1).toNat = a - 1 := by omega
  have e2 : ((b : Int)).toNat = b := by omega
  have hslice : pySlice seq ((a : Int) - 1) (b : Int) = seq.drop (a - 1) := by
    rw [pySlice_nonneg (by omega) (by omega), e1, e2,
      List.take_of_length_le (by omega)]
  rw [sequence_plain h1 h2, hslice]
  exact checkCharset_ok (fun c hc => hiupac c (List.mem_of_mem_drop hc))

theorem C4_overlong_range_truncates_witness :
    parseNatDigits (cs "2") = some 2 ∧ parseNatDigits (cs "9") = some 9 ∧
    1 ≤ 2 ∧ (cs "AAAC").length < 9 ∧
    (∀ c ∈ cs "AAAC", c ∈ iupac_characters) ∧
    feature_sequence (cs "2" ++ '.' :: '.' :: cs "9") (cs "AAAC") =
      .ok ((cs "AAAC").drop (2 - 1)) :=
  ⟨by decide, by decide, by decide, by decide, by decide,
    @C4_overlong_range_truncates (cs "AAAC") (cs "2") (cs "9") 2 9
      (by decide) (by decide) (by decide) (by decide) (by decide)⟩

/-- C5 (counterexample): the inverted concrete range `5..2` does not fail
parsing — no `MalformedLocation` (or any `start <= end` check) exists in the
code.  `set_span` stores the line unchanged, and evaluating it returns the
empty string via Python slice semantics rather than raising or swapping. -/
theorem C5_counterexample :
    set_span (cs "5..2") =
      { spanline := cs "5..2", fuzzyboundary := none } ∧
    feature_sequence (cs "5..2") (cs "AAACCGGG") = .ok [] :=
  ⟨by decide, rfl⟩

/-- C5 (amended): a concrete range with `start > end` is accepted as-is by
parsing, and `GBFeature.sequence` evaluates it to the empty string (the
Python slice `seq[start-1:end]` with `start-1 >= end`); the endpoints are
neither swapped nor rejected. -/
theorem C5_inverted_range_evaluates_empty {seq d1 d2 : List Char} {a b : Nat}
    (h1 : parseNatDigits d1 = some a) (h2 : parseNatDigits d2 = some b)
    (hba : b < a) :
    feature_sequence (d1 ++ '.' :: '.' :: d2) seq = .ok [] := by
  have e1 : ((a : Int) - 1).toNat = a - 1 := by omega
  have hslice : pySlice seq ((a : Int) - 1) (b : Int) = [] := by
    rw [pySlice_nonneg (by omega) (by omega), e1]
    apply List.drop_eq_nil_of_le
    rw [List.length_take]
    omega
  rw [sequence_plain h1 h2, hslice]
  exact checkCharset_ok (fun c hc => absurd hc (List.not_mem_nil c))

theorem C5_inverted_range_evaluates_empty_witness :
    parseNatDigits (cs "5") = some 5 ∧ parseNatDigits (cs "2") = some 2 ∧
    2 < 5 ∧
    feature_sequence (cs "5" ++ '.' :: '.' :: cs "2") (cs "AAACCGGG") =
      .ok [] :=
  ⟨by decide, by decide, by decide,
    @C5_inverted_range_evaluates_empty (cs "AAACCGGG") (cs "5") (cs "2") 5 2
      (by decide) (by decide) (by decide)⟩

/-- C6 (counterexample): `complement(join(1..3,5..7))` on `AAACCGGG` does not
evaluate to `CCCTTT`.  Positions 5..7 (1-based) of `AAACCGGG` are `CGG`, not
`GGG`, so the join yields `AAACGG` and the reverse complement is `CCGTTT`. -/
theorem C6_counterexample :
    feature_sequence (cs "complement(join(1..3,5..7))") (cs "AAACCGGG") =
      .ok (cs "CCGTTT") ∧ cs "CCGTTT" ≠ cs "CCCTTT" :=
  ⟨rfl, by decide⟩

/-- C6 (amended): the three-stage transform on `AAACCGGG` yields `CCGTTT`:
the first regex round resolves `join(1..3,5..7)` to `AAA ++ CGG = AAACGG`,
string replacement produces `complement(AAACGG)`, and the second round
reverse-complements it to `CCGTTT`, which passes the alphabet check. -/
theorem C6_complement_join_value :
    feature_sequence (cs "complement(join(1..3,5..7))") (cs "AAACCGGG") =
      .ok (cs "CCGTTT") := rfl

/-- C7: for a concrete range `start..end` with
`1 <= start <= end <= |seq|` over an IUPAC sequence, `GBFeature.sequence`
returns the substring of the record sequence from 0-based index `start-1`
(inclusive) to `end` (exclusive), whose length is `end - start + 1`. -/
theorem C7_plain_range_substring {seq d1 d2 : List Char} {a b : Nat}
    (h1 : parseNatDigits d1 = some a) (h2 : parseNatDigits d2 = some b)
    (ha : 1 ≤ a) (hab : a ≤ b) (hb : b ≤ seq.length)
    (hiupac : ∀ c ∈ seq, c ∈ iupac_characters) :
    feature_sequence (d1 ++ '.' :: '.' :: d2) seq =
      .ok ((seq.take b).drop (a - 1)) ∧
    ((seq.take b).drop (a - 1)).length = b - a + 1 := by
  have e1 : ((a : Int) - 1).toNat = a - 1 := by omega
  have e2 : ((b : Int)).toNat = b := by omega
  have hslice : pySlice seq ((a : Int) - 1) (b : Int) =
      (seq.take b).drop (a - 1) := by
    rw [pySlice_nonneg (by omega) (by omega), e1, e2]
  constructor
  · rw [sequence_plain h1 h2, hslice]
    exact checkCharset_ok (fun c hc =>
      hiupac c (List.mem_of_mem_take (List.mem_of_mem_drop hc)))
  · rw [List.length_drop, List.length_take]
    omega

theorem C7_plain_range_substring_witness :
    parseNatDigits (cs "2") = some 2 ∧ parseNatDigits (cs "4") = some 4 ∧
    1 ≤ 2 ∧ 2 ≤ 4 ∧ 4 ≤ (cs "AAACCGGG").length ∧
    (∀ c ∈ cs "AAACCGGG", c ∈ iupac_characters) ∧
    (feature_sequence (cs "2" ++ '.' :: '.' :: cs "4") (cs "AAACCGGG") =
        .ok (((cs "AAACCGGG").take 4).drop (2 - 1)) ∧
      (((cs "AAACCGGG").take 4).drop (2 - 1)).length = 4 - 2 + 1) :=
  ⟨by decide, by decide, by decide, by decide, by decide, by decide,
    @C7_plain_range_substring (cs "AAACCGGG") (cs "2") (cs "4") 2 4
      (by decide) (by decide) (by decide) (by decide) (by decide)
      (by decide)⟩

/-- C8: evaluating a feature's sequence twice yields the same result for
either value of the caching flag (the cached value, when one is written, is
exactly the value just computed, and the computation itself is
deterministic); and the feature state is mutated only when the flag is set
and evaluation succeeded, in which case the memo slot holds the result — in
particular a failed evaluation never caches. -/
theorem C8_sequence_idempotent_cache_on_success (st : FeatState)
    (seq : List Char) (flag : Bool) :
    (feature_sequence_run (feature_sequence_run st seq flag).2 seq flag).1 =
      (feature_sequence_run st seq flag).1 ∧
    ((feature_sequence_run st seq flag).2 = st ∨
      (flag = true ∧ ∃ r, (feature_sequence_run st seq flag).1 = .ok r ∧
        (feature_sequence_run st seq flag).2 = { st with cached := r })) := by
  obtain ⟨sp, cach⟩ := st
  by_cases hc : cach.isEmpty
  · have hc2 : cach = [] := by simpa using hc
    subst hc2
    by_cases hn : isnumeric sp
    · constructor
      · simp [feature_sequence_run, hn]
      · left
        simp [feature_sequence_run, hn]
    · cases hm : sequence_main sp seq with
      | ok r =>
        cases flag with
        | false =>
          constructor
          · simp [feature_sequence_run, hn, hm]
          · left
            simp [feature_sequence_run, hn, hm]
        | true =>
          constructor
          · by_cases hr : r.isEmpty
            · have hr2 : r = [] := by simpa using hr
              subst hr2
              simp [feature_sequence_run, hn, hm]
            · simp [feature_sequence_run, hn, hm, hr]
          · right
            exact ⟨rfl, r, by simp [feature_sequence_run, hn, hm],
              by simp [feature_sequence_run, hn, hm]⟩
      | error e =>
        constructor
        · simp [feature_sequence_run, hn, hm]
        · left
          simp [feature_sequence_run, hn, hm]
  · constructor
    · simp [feature_sequence_run, hc]
    · left
      simp [feature_sequence_run, hc]

end Parsegb
